import Mathlib

/-!
Shallow embedding of the obsidian_flash incremental match-and-label engine:
the keyboard mapper (`src/keyboard/KeyboardMapper.ts`), the literal and
phonetic match finders and the match detector (`src/flash/FlashMatchDetector.ts`,
`src/flash/pyjj.ts`), the label generator, and the Flash controller state
machine (`src/flash/FlashController.ts`).

Conventions of the embedding:
* JS strings are `List Char` (code points); UTF-16 offsets are recovered
  with `jsLen` where the source indexes by `.length` of a character.
* `String.prototype.toLowerCase` is modelled by `Char.toLower` (the ASCII
  case fold, which is what the alphabet/label characters exercise).
* The detector's host environment (editor viewport, visible ranges) and the
  external `pinyin-pro` lookup are passed in as explicit parameters.
* Side effects of the controller (the decoration callback, the jump callback,
  the completion callback) are logged in ghost fields of the state.
-/

namespace ObsidianFlash

/-! ### Data model (`src/types.ts`) -/

/-- A raw match produced by the finders, before label assignment
(`RawFlashMatch` in `src/flash/pyjj.ts`). -/
structure RawFlashMatch where
  index : Nat
  matchLength : Nat
  linkText : List Char
deriving DecidableEq, Repr

/-- A labelled match (`FlashMatch` in `src/types.ts`); the constant
`type: 'flash'` field is omitted.  `letter` is the assigned hint label
(empty list = no label). -/
structure FlashMatch where
  index : Nat
  matchLength : Nat
  linkText : List Char
  letter : List Char
deriving DecidableEq, Repr

/-- The `flashInputMode` setting: `'literal'` or `'zh-pyjj'`. -/
inductive InputMode where
  | literal
  | zhPyjj
deriving DecidableEq, Repr

/-- The slice of `Settings` the flash engine reads. -/
structure Settings where
  letters : List Char
  flashCharacterCount : Nat
  flashCaseSensitive : Bool
  flashInputMode : InputMode
deriving DecidableEq, Repr

/-! ### Keyboard mapper (`src/keyboard/KeyboardMapper.ts`) -/

/-- `CYRILLIC_TO_LATIN` keyboard-position table. -/
def CYRILLIC_TO_LATIN : List (Char × Char) :=
  [('й', 'q'), ('ц', 'w'), ('у', 'e'), ('к', 'r'), ('е', 't'), ('н', 'y'), ('г', 'u'),
   ('ш', 'i'), ('щ', 'o'), ('з', 'p'),
   ('ф', 'a'), ('ы', 's'), ('в', 'd'), ('а', 'f'), ('п', 'g'), ('р', 'h'), ('о', 'j'),
   ('л', 'k'), ('д', 'l'),
   ('я', 'z'), ('ч', 'x'), ('с', 'c'), ('м', 'v'), ('и', 'b'), ('т', 'n'), ('ь', 'm'),
   ('Й', 'Q'), ('Ц', 'W'), ('У', 'E'), ('К', 'R'), ('Е', 'T'), ('Н', 'Y'), ('Г', 'U'),
   ('Ш', 'I'), ('Щ', 'O'), ('З', 'P'),
   ('Ф', 'A'), ('Ы', 'S'), ('В', 'D'), ('А', 'F'), ('П', 'G'), ('Р', 'H'), ('О', 'J'),
   ('Л', 'K'), ('Д', 'L'),
   ('Я', 'Z'), ('Ч', 'X'), ('С', 'C'), ('М', 'V'), ('И', 'B'), ('Т', 'N'), ('Ь', 'M'),
   ('х', '['), ('ъ', ']'), ('ж', ';'), ('э', '\''), ('б', ','), ('ю', '.'),
   ('Х', '\x7b'), ('Ъ', '\x7d'), ('Ж', ':'), ('Э', '"'), ('Б', '<'), ('Ю', '>')]

/-- `isCyrillic`: the string contains a character in U+0400..U+04FF. -/
def isCyrillic (s : List Char) : Bool :=
  s.any fun c => decide (0x400 ≤ c.toNat) && decide (c.toNat ≤ 0x4FF)

/-- `convertToLatin`: map each character through `CYRILLIC_TO_LATIN`,
leaving unmapped characters unchanged. -/
def convertToLatin (s : List Char) : List Char :=
  s.map fun c => (((CYRILLIC_TO_LATIN.find? fun p => p.1 == c).map Prod.snd).getD c)

/-- `normalizeKeypress`. -/
def normalizeKeypress (key : List Char) : List Char :=
  if isCyrillic key then convertToLatin key else key

/-- `MODIFIER_KEYS`. -/
def MODIFIER_KEYS : List (List Char) :=
  [['S', 'h', 'i', 'f', 't'], ['M', 'e', 't', 'a'], ['E', 's', 'c', 'a', 'p', 'e'],
   ['C', 'o', 'n', 't', 'r', 'o', 'l'], ['A', 'l', 't'],
   ['C', 'a', 'p', 's', 'L', 'o', 'c', 'k'], ['T', 'a', 'b'],
   ['B', 'a', 'c', 'k', 's', 'p', 'a', 'c', 'e'], ['E', 'n', 't', 'e', 'r']]

/-- `isModifierKey`. -/
def isModifierKey (key : List Char) : Bool :=
  MODIFIER_KEYS.contains key

/-- `String.prototype.toLowerCase`, modelled on the ASCII range. -/
def jsToLower (c : Char) : Char := c.toLower

/-! ### Literal match scan (`FlashMatchDetector.findLiteralMatches`)

The source escapes all regex metacharacters in the search string
(`escapeRegex`) before compiling, so the compiled regex matches exactly the
literal search string; with the `i` flag each pattern character matches one
content character up to case folding.  The embedding therefore models the
`regex.exec` loop directly as a literal scan. -/

/-- Case folding applied by the regex: identity when `flashCaseSensitive`,
lower-casing otherwise (the `i` flag). -/
def foldCase (caseSensitive : Bool) (c : Char) : Char :=
  if caseSensitive then c else jsToLower c

/-- Does the literal pattern match `content` at position `i`? -/
def literalMatchAt (caseSensitive : Bool) (pat content : List Char) (i : Nat) : Bool :=
  decide (i + pat.length ≤ content.length) &&
    ((content.drop i).take pat.length).map (foldCase caseSensitive)
      == pat.map (foldCase caseSensitive)

/-- `regex.exec` from `lastIndex = pos`: the first match position `≥ pos`
(or `none`). -/
def findFrom (caseSensitive : Bool) (pat content : List Char) (pos : Nat) : Option Nat :=
  ((List.range (content.length + 1)).filter fun i =>
      decide (pos ≤ i) && literalMatchAt caseSensitive pat content i).head?

/-- The `while ((match = regex.exec(content)) !== null)` loop of
`findLiteralMatches`, with the zero-length-match guard
(`if (match.index === regex.lastIndex) regex.lastIndex++`). -/
def scanLiteral (caseSensitive : Bool) (pat content : List Char) (base pos : Nat) :
    List RawFlashMatch :=
  match h : findFrom caseSensitive pat content pos with
  | none => []
  | some i =>
    { index := i + base, matchLength := pat.length,
      linkText := (content.drop i).take pat.length } ::
      scanLiteral caseSensitive pat content base
        (if pat.length = 0 then i + 1 else i + pat.length)
termination_by content.length + 1 - pos
decreasing_by
  have hmem := List.mem_of_mem_head? (l := (List.range (content.length + 1)).filter fun j =>
      decide (pos ≤ j) && literalMatchAt caseSensitive pat content j) (a := i)
    (by rw [show ((List.range (content.length + 1)).filter fun j =>
          decide (pos ≤ j) && literalMatchAt caseSensitive pat content j).head? = some i from h]; rfl)
  rw [List.mem_filter] at hmem
  obtain ⟨hr, hp⟩ := hmem
  rw [List.mem_range] at hr
  rw [Bool.and_eq_true, decide_eq_true_iff] at hp
  have h1 : pos ≤ i := hp.1
  have h2 : i < content.length + 1 := hr
  split <;> omega

/-- `FlashMatchDetector.findLiteralMatches`. -/
def findLiteralMatches (settings : Settings) (searchString content : List Char)
    (index : Nat) : List RawFlashMatch :=
  scanLiteral settings.flashCaseSensitive searchString content index 0

/-! ### Phonetic (pinyin-initial) matcher (`src/flash/pyjj.ts`)

The per-character phonetic code lists come from the external `pinyin-pro`
library compressed by `getPyjjCodesForChar`; the embedding passes the
resulting cache as an explicit function `codes : Char → List (List Char)`
(the `pyjjCodeCache`, a pure function of the character). -/

/-- A token parsed from the typed search string (`PyjjToken`). -/
inductive PyjjToken where
  | pair (value : List Char)
  | single (value : List Char)
deriving DecidableEq, Repr

/-- The step-2 slicing loop of `parsePyjjTokens` over the lower-cased input. -/
def chunkPyjj : List Char → List PyjjToken
  | [] => []
  | [c] => [PyjjToken.single [c]]
  | a :: b :: rest => PyjjToken.pair [a, b] :: chunkPyjj rest

/-- `parsePyjjTokens`: `null` unless the input matches `/^[a-zA-Z]+$/`;
otherwise the lower-cased input sliced into 2-character tokens left to
right, a dangling final character becoming a `single` token. -/
def parsePyjjTokens (input : List Char) : Option (List PyjjToken) :=
  if input ≠ [] ∧ input.all Char.isAlpha then
    some (chunkPyjj (input.map jsToLower))
  else
    none

/-- `matchesToken`: a `pair` token matches iff it is literally in the
character's code list; a `single` token matches iff it is a prefix of some
code in the list (false outright for a character with no codes). -/
def matchesToken (codes : Char → List (List Char)) (c : Char) (t : PyjjToken) : Bool :=
  let cs := codes c
  if cs.isEmpty then false
  else
    match t with
    | PyjjToken.pair v => cs.contains v
    | PyjjToken.single v => cs.any fun code => v.isPrefixOf code

/-- `CharInfo`: one content character with its UTF-16 `start`/`end` offsets
(the source's `end` field is `stop` here; `end` is a Lean keyword). -/
structure CharInfo where
  char : Char
  start : Nat
  stop : Nat
deriving DecidableEq, Repr

/-- UTF-16 length of one character (`char.length` in JS). -/
def jsLen (c : Char) : Nat := if c.toNat < 0x10000 then 1 else 2

/-- The offset-accumulating loop of `buildCharInfos`. -/
def buildCharInfosFrom (offset : Nat) : List Char → List CharInfo
  | [] => []
  | c :: rest =>
    { char := c, start := offset, stop := offset + jsLen c } ::
      buildCharInfosFrom (offset + jsLen c) rest

/-- `buildCharInfos`. -/
def buildCharInfos (content : List Char) : List CharInfo :=
  buildCharInfosFrom 0 content

/-- The UTF-16 offset of character position `p` of a string (the `start`
offset `buildCharInfos` computes for that position). -/
def utf16Offset (content : List Char) (p : Nat) : Nat :=
  ((content.take p).map jsLen).sum

/-- The inner cursor loop of `findPyjjMatchesInContent`: every token matches
its consecutive character starting at `cursor` (an out-of-range character —
`!info` in the source — fails). -/
def runTokens (codes : Char → List (List Char)) (chars : List CharInfo) :
    List PyjjToken → Nat → Bool
  | [], _ => true
  | t :: ts, cursor =>
    match chars[cursor]? with
    | none => false
    | some info => matchesToken codes info.char t && runTokens codes chars ts (cursor + 1)

/-- `findPyjjMatchesInContent`: slide a window of `tokens.length` characters
across the content; record a match for every window where all tokens match.
`linkText` is `content.slice(startOffset, endOffset)`, i.e. exactly the
window's characters. -/
def findPyjjMatchesInContent (codes : Char → List (List Char))
    (searchString content : List Char) (baseIndex : Nat) : List RawFlashMatch :=
  match parsePyjjTokens searchString with
  | none => []
  | some tokens =>
    if tokens.length = 0 then []
    else
      let chars := buildCharInfos content
      if chars.length < tokens.length then []
      else
        (List.range (chars.length - tokens.length + 1)).filterMap fun start =>
          if runTokens codes chars tokens start then
            let startOffset := ((chars[start]?).map CharInfo.start).getD 0
            let endOffset := ((chars[start + tokens.length - 1]?).map CharInfo.stop).getD 0
            some { index := baseIndex + startOffset,
                   matchLength := endOffset - startOffset,
                   linkText := ((chars.drop start).take tokens.length).map CharInfo.char }
          else none

/-! ### Merging and the raw match list (`FlashMatchDetector`) -/

/-- The Map key `` `${match.index}:${match.matchLength}` `` of `mergeMatches`. -/
def matchKey (m : RawFlashMatch) : Nat × Nat := (m.index, m.matchLength)

/-- First-occurrence deduplication by `matchKey`, with the set of already
inserted keys as accumulator: the JS `Map` keeps the first match inserted
for each key (`if (!merged.has(key)) merged.set(key, match)`), and
`Array.from(map.values())` returns them in insertion order. -/
def dedupeByKeyFrom (seen : List (Nat × Nat)) : List RawFlashMatch → List RawFlashMatch
  | [] => []
  | m :: rest =>
    if seen.contains (matchKey m) then dedupeByKeyFrom seen rest
    else m :: dedupeByKeyFrom (matchKey m :: seen) rest

/-- Deduplication by `matchKey` starting from an empty `Map`. -/
def dedupeByKey (l : List RawFlashMatch) : List RawFlashMatch :=
  dedupeByKeyFrom [] l

/-- The sort comparator of `mergeMatches`: index ascending, ties broken by
matchLength ascending. -/
def keyLE (a b : RawFlashMatch) : Bool :=
  decide (a.index < b.index) ||
    (decide (a.index = b.index) && decide (a.matchLength ≤ b.matchLength))

/-- `FlashMatchDetector.mergeMatches`: insert all lists into a Map keyed by
`(index, matchLength)` keeping first occurrences, then sort.  The JS sort is
modelled by `mergeSort keyLE`: after deduplication the keys are pairwise
distinct, so the comparator is a total strict order on the entries and the
sorted result is unique. -/
def mergeMatches (lists : List (List RawFlashMatch)) : List RawFlashMatch :=
  (dedupeByKey lists.flatten).mergeSort keyLE

/-- The `{...match, letter: '', type: 'flash'}` expansion in `getRawMatches`. -/
def rawToFlash (m : RawFlashMatch) : FlashMatch :=
  { index := m.index, matchLength := m.matchLength, linkText := m.linkText, letter := [] }

/-- `FlashMatchDetector.getRawMatches`. -/
def getRawMatches (settings : Settings) (codes : Char → List (List Char))
    (searchString content : List Char) (index : Nat) : List FlashMatch :=
  let literalMatches := findLiteralMatches settings searchString content index
  if settings.flashInputMode ≠ InputMode.zhPyjj then
    literalMatches.map rawToFlash
  else
    let pyjjMatches := findPyjjMatchesInContent codes searchString content index
    (mergeMatches [literalMatches, pyjjMatches]).map rawToFlash

/-- First-occurrence deduplication of characters with the already seen
characters as accumulator (`Array.from(new Set(...))` keeps first
occurrences in insertion order). -/
def jsSetDedupFrom (seen : List Char) : List Char → List Char
  | [] => []
  | c :: rest =>
    if seen.contains c then jsSetDedupFrom seen rest
    else c :: jsSetDedupFrom (c :: seen) rest

/-- Deduplication starting from an empty `Set`. -/
def jsSetDedup (l : List Char) : List Char :=
  jsSetDedupFrom [] l

/-- `FlashMatchDetector.collectSearchConflictChars`: probe every distinct
lower-cased non-whitespace alphabet character by re-running the match finder
on the extended search string.  The source's early `break` once every
candidate has conflicted skips no candidate, so it is modelled by a plain
filter. -/
def collectSearchConflictChars (settings : Settings) (codes : Char → List (List Char))
    (searchString content : List Char) (index : Nat) : List Char :=
  let candidates := (jsSetDedup (settings.letters.map jsToLower)).filter fun c =>
    !c.isWhitespace
  candidates.filter fun candidate =>
    !(getRawMatches settings codes (searchString ++ [candidate]) content index).isEmpty

/-! ### Label generator -/

/-- Modelled from the spec: `generateHintLabels` — the implementation file
`src/hints/HintGenerator.ts` is not among the provided sources, only its
call sites.  Per §4.1 and §3 of the spec: deduplicate the alphabet
preserving first-occurrence order; `usable` is the alphabet minus the
excluded set; emit up to `min(count, |usable|)` single-character labels
consuming `usable` in order; if more are needed, the deduplicated-alphabet
characters not consumed as single-character labels become prefixes, each
paired with every non-excluded alphabet letter (prefix outer loop, suffix
inner loop), until `count` labels exist or capacity is exhausted. -/
def generateHintLabels (alphabet : List Char) (count : Nat) (excluded : List Char) :
    List (List Char) :=
  let deduped := jsSetDedup alphabet
  let usable := deduped.filter fun c => !(excluded.contains c)
  let singles := (usable.take count).map fun c => [c]
  let prefixChars := deduped.filter fun c => !((usable.take count).contains c)
  let pairs := prefixChars.flatMap fun p => usable.map fun s => [p, s]
  (singles ++ pairs).take count

/-! ### Flash controller (`src/flash/FlashController.ts`)

The controller's match detector is passed in as a function
`det : List Char → List FlashMatch` (the source's `this.detector.findMatches`
over the live viewport).  Side effects are logged in ghost fields:
`completions` counts `onComplete` invocations, `jumps` records `onJump`
invocations together with the `useCapital` flag handed to
`calculateJumpPosition` (the final offset additionally depends on the host
document, which the claims do not concern), `decorations` records
`onDecorationUpdate` payloads. -/

/-- One decoration callback payload: `(matches, searchString.length, matchedPrefix)`. -/
abbrev DecorationEvent := List FlashMatch × Nat × List Char

/-- The mutable fields of `FlashController` plus ghost callback logs. -/
structure FState where
  searchString : List Char
  isActive : Bool
  isDeactivating : Bool
  matchList : List FlashMatch
  matchedPrefix : List Char
  prefixShiftHeld : Bool
  lastShiftKey : Bool
  completions : Nat
  jumps : List (FlashMatch × Bool)
  decorations : List DecorationEvent
deriving DecidableEq, Repr

/-- `notifyDecorationUpdate` (the search-panel update has no state effect). -/
def notifyDecorationUpdate (s : FState) : FState :=
  { s with decorations :=
      s.decorations ++ [(s.matchList, s.searchString.length, s.matchedPrefix)] }

/-- The field-clearing prefix of `deactivate`, up to and including setting
the re-entry guard. -/
def deactivateCleared (s : FState) : FState :=
  { s with isDeactivating := true, isActive := false, searchString := [],
           matchList := [], matchedPrefix := [], prefixShiftHeld := false,
           lastShiftKey := false }

/-- `FlashController.deactivate`: guarded by `isDeactivating || !isActive`;
otherwise clear all state, fire a decoration update, tear down (DOM-only),
fire `onComplete` once, and drop the guard.  `onComplete` runs while
`isDeactivating = true`, so a re-entrant `deactivate` from its side effects
is absorbed by the guard. -/
def deactivate (s : FState) : FState :=
  if s.isDeactivating || !s.isActive then s
  else
    let mid := notifyDecorationUpdate (deactivateCleared s)
    { mid with completions := mid.completions + 1, isDeactivating := false }

/-- `jumpToMatch`: fire `onJump` (recorded with the `useCapital` flag), then
deactivate. -/
def jumpToMatch (m : FlashMatch) (useCapital : Bool) (s : FState) : FState :=
  deactivate { s with jumps := s.jumps ++ [(m, useCapital)] }

/-- `updateMatches`: below the minimum character count clear the matches;
otherwise recompute them and auto-jump (with `lastShiftKey`) when exactly
one match remains. -/
def updateMatches (det : List Char → List FlashMatch) (cfg : Settings) (s : FState) :
    FState :=
  if s.searchString.length < cfg.flashCharacterCount then
    notifyDecorationUpdate { s with matchList := [] }
  else
    match det s.searchString with
    | [m] => jumpToMatch m s.lastShiftKey { s with matchList := [m] }
    | ms => notifyDecorationUpdate { s with matchList := ms }

/-- `FlashController.isPrintable`: a single-character key. -/
def isPrintable (key : List Char) : Bool :=
  key.length == 1

/-- The body of the `if (this.isPrintable(key))` block of `handleKeyDown`,
for the printable character `c` (after `lastShiftKey` was recorded). -/
def handlePrintableKey (det : List Char → List FlashMatch) (cfg : Settings)
    (c : Char) (shiftKey : Bool) (s : FState) : FState :=
  let normalizedKey := normalizeKeypress [c]
  if cfg.flashCharacterCount ≤ s.searchString.length ∧ 0 < s.matchList.length then
    if s.matchedPrefix ≠ [] then
      let fullLabel := s.matchedPrefix ++ normalizedKey.map jsToLower
      match s.matchList.find? (fun m => m.letter == fullLabel) with
      | some m => jumpToMatch m (s.prefixShiftHeld || shiftKey) s
      | none =>
        let s1 := { s with matchedPrefix := [], prefixShiftHeld := false }
        updateMatches det cfg { s1 with searchString := s1.searchString ++ [c] }
    else
      let potentialSearch := s.searchString ++ [c]
      let potentialMatches := det potentialSearch
      if 0 < potentialMatches.length then
        let s1 := { s with searchString := potentialSearch, matchList := potentialMatches }
        match potentialMatches with
        | [m] => jumpToMatch m shiftKey s1
        | _ => notifyDecorationUpdate s1
      else
        let lowerKey := normalizedKey.map jsToLower
        match s.matchList.find? (fun m => m.letter == lowerKey) with
        | some m => jumpToMatch m shiftKey s
        | none =>
          let prefixMatches := s.matchList.filter fun m =>
            decide (m.letter.length = 2) && m.letter.take 1 == lowerKey
          if 0 < prefixMatches.length then
            notifyDecorationUpdate
              { s with matchedPrefix := lowerKey, prefixShiftHeld := shiftKey,
                       matchList := prefixMatches }
          else
            notifyDecorationUpdate { s with searchString := potentialSearch, matchList := [] }
  else
    updateMatches det cfg { s with searchString := s.searchString ++ [c] }

/-- The `event.key` string `'Escape'`. -/
def escapeKey : List Char := ['E', 's', 'c', 'a', 'p', 'e']

/-- The `event.key` string `'Tab'`. -/
def tabKey : List Char := ['T', 'a', 'b']

/-- The `event.key` string `'Backspace'`. -/
def backspaceKey : List Char := ['B', 'a', 'c', 'k', 's', 'p', 'a', 'c', 'e']

/-- `FlashController.handleKeyDown`: record the shift state, then dispatch
on Escape, Backspace, Tab, modifier keys, printable (single-character) keys;
anything else falls through with no further effect. -/
def handleKeyDown (det : List Char → List FlashMatch) (cfg : Settings)
    (key : List Char) (shiftKey : Bool) (s0 : FState) : FState :=
  let s := { s0 with lastShiftKey := shiftKey }
  if key = escapeKey then deactivate s
  else if key = backspaceKey then
    if s.matchedPrefix ≠ [] then
      updateMatches det cfg { s with matchedPrefix := [], prefixShiftHeld := false }
    else if 0 < s.searchString.length then
      updateMatches det cfg { s with searchString := s.searchString.dropLast }
    else s
  else if key = tabKey then deactivate s
  else if isModifierKey key then s
  else
    match key with
    | [c] => handlePrintableKey det cfg c shiftKey s
    | _ => s

/-! ## Theorems -/

/-! ### Frame lemmas for the controller -/

theorem deactivate_jumps (s : FState) : (deactivate s).jumps = s.jumps := by
  unfold deactivate notifyDecorationUpdate deactivateCleared
  split <;> rfl

theorem jumpToMatch_jumps (m : FlashMatch) (useCapital : Bool) (s : FState) :
    (jumpToMatch m useCapital s).jumps = s.jumps ++ [(m, useCapital)] := by
  unfold jumpToMatch
  rw [deactivate_jumps]

/-- A single-character key is handled by the printable branch after
`lastShiftKey` is recorded: no single-character key equals `'Escape'`,
`'Tab'`, `'Backspace'` or a modifier key name. -/
theorem handleKeyDown_char (det : List Char → List FlashMatch) (cfg : Settings)
    (c : Char) (shiftKey : Bool) (s : FState) :
    handleKeyDown det cfg [c] shiftKey s =
      handlePrintableKey det cfg c shiftKey { s with lastShiftKey := shiftKey } := by
  unfold handleKeyDown
  simp [escapeKey, tabKey, backspaceKey, isModifierKey, MODIFIER_KEYS]

/-- C8: deactivation is idempotent and re-entrancy guarded.  Calling
`deactivate` twice in direct succession equals calling it once (so across
the two calls the completion callback fires exactly the once the first call
fires); one call bumps the completion count exactly once when the
controller was active and not already deactivating, and not at all
otherwise; and at the point where `onComplete` runs (the cleared mid-state
with `isDeactivating = true`), a re-entrant `deactivate` triggered by the
callback's side effects is absorbed with no state change. -/
theorem deactivate_idempotent_guarded (s : FState) :
    deactivate (deactivate s) = deactivate s ∧
    (deactivate s).completions =
      s.completions + (if s.isActive && !s.isDeactivating then 1 else 0) ∧
    deactivate (notifyDecorationUpdate (deactivateCleared s)) =
      notifyDecorationUpdate (deactivateCleared s) := by
  cases hd : s.isDeactivating <;> cases ha : s.isActive <;>
    simp [deactivate, deactivateCleared, notifyDecorationUpdate, hd, ha]

/-- C10: a key whose string is not a single character and is not `'Escape'`,
`'Tab'` or `'Backspace'` leaves the whole controller state unchanged except
for recording the key's shift state (`'Enter'` and the other multi-character
named keys are silently ignored); and every single-character key is routed
to the printable-key handling. -/
theorem handleKeyDown_nonprintable_frame (det : List Char → List FlashMatch)
    (cfg : Settings) (key : List Char) (shiftKey : Bool) (s : FState) :
    (key.length ≠ 1 → key ≠ escapeKey → key ≠ tabKey → key ≠ backspaceKey →
      handleKeyDown det cfg key shiftKey s = { s with lastShiftKey := shiftKey }) ∧
    (∀ c : Char, isPrintable [c] = true ∧
      handleKeyDown det cfg [c] shiftKey s =
        handlePrintableKey det cfg c shiftKey { s with lastShiftKey := shiftKey }) := by
  constructor
  · intro hlen he ht hb
    unfold handleKeyDown
    rw [if_neg he, if_neg hb, if_neg ht]
    split
    · rfl
    · match key, hlen with
      | [], _ => rfl
      | [c], hlen => exact absurd rfl hlen
      | _ :: _ :: _, _ => rfl
  · intro c
    exact ⟨rfl, handleKeyDown_char det cfg c shiftKey s⟩

/-- Witness for C10 at the arrow key `'ArrowLeft'` with Shift held. -/
theorem handleKeyDown_nonprintable_frame_witness :
    handleKeyDown (fun _ => []) ⟨['a', 'b'], 1, true, InputMode.literal⟩
        ['A', 'r', 'r', 'o', 'w', 'L', 'e', 'f', 't'] true
        ⟨['x'], true, false, [], [], false, false, 0, [], []⟩ =
      ⟨['x'], true, false, [], [], false, true, 0, [], []⟩ :=
  (handleKeyDown_nonprintable_frame _ _ _ _ _).1 (by decide) (by decide) (by decide)
    (by decide)

/-- C1: in plain searching at or above the minimum-character threshold with
at least one current match, a printable key first probes the detector with
the search string extended by the raw key; when the extension still yields
matches it is committed (search extension takes priority over label
selection: no label jump fires, the search string and match list are
updated), and when exactly one match remains the controller immediately
jumps to it with the current key's shift state. -/
theorem handleKeyDown_extension_priority (det : List Char → List FlashMatch)
    (cfg : Settings) (c : Char) (shiftKey : Bool) (s : FState)
    (hplain : s.matchedPrefix = [])
    (hlen : cfg.flashCharacterCount ≤ s.searchString.length)
    (hm : s.matchList ≠ [])
    (hext : det (s.searchString ++ [c]) ≠ []) :
    (∀ m, det (s.searchString ++ [c]) = [m] →
      (handleKeyDown det cfg [c] shiftKey s).jumps = s.jumps ++ [(m, shiftKey)]) ∧
    (∀ m1 m2 rest, det (s.searchString ++ [c]) = m1 :: m2 :: rest →
      (handleKeyDown det cfg [c] shiftKey s).searchString = s.searchString ++ [c] ∧
      (handleKeyDown det cfg [c] shiftKey s).matchList = det (s.searchString ++ [c]) ∧
      (handleKeyDown det cfg [c] shiftKey s).matchedPrefix = [] ∧
      (handleKeyDown det cfg [c] shiftKey s).jumps = s.jumps) := by
  rw [handleKeyDown_char det cfg c shiftKey s]
  unfold handlePrintableKey
  simp only [hplain]
  rw [if_pos ⟨hlen, List.length_pos.mpr hm⟩]
  rw [if_neg (by simp)]
  constructor
  · intro m hdet
    simp only [hdet]
    rw [if_pos (by simp)]
    simp [jumpToMatch_jumps]
  · intro m1 m2 rest hdet
    simp only [hdet]
    rw [if_pos (by simp)]
    simp [notifyDecorationUpdate]

/-- Witness for C1: extending `"x"` by `'a'` leaves exactly one match, so the
controller auto-jumps to it with the key's shift state. -/
theorem handleKeyDown_extension_priority_witness :
    (handleKeyDown (fun q => if q = ['x', 'a'] then [⟨7, 2, ['x', 'a'], ['q']⟩] else [])
        ⟨['q', 'w'], 1, true, InputMode.literal⟩ ['a'] true
        ⟨['x'], true, false, [⟨7, 1, ['x'], ['q']⟩, ⟨9, 1, ['x'], ['w']⟩], [], false,
          false, 0, [], []⟩).jumps
      = [] ++ [(⟨7, 2, ['x', 'a'], ['q']⟩, true)] :=
  (handleKeyDown_extension_priority _ _ _ _ _ (by decide) (by decide) (by decide)
    (by decide)).1 _ (by decide)

/-- C2 (amended): in prefix-pending state, for a printable key: if the
remembered prefix concatenated with the normalized, lower-cased key equals
the label of a current match, the controller jumps to it with
`shift = prefixShiftHeld OR thisKeyShift`; if no such match exists, the
prefix-pending state is cleared and the raw key is committed as a plain
search extension — appended to the search string with matches recomputed
via `updateMatches` (auto-jumping when exactly one match results) — but it
is *not* re-evaluated as a label or new prefix attempt.  Total in both
cases (never crashes). -/
theorem handleKeyDown_prefix_pending (det : List Char → List FlashMatch)
    (cfg : Settings) (c : Char) (shiftKey : Bool) (s : FState)
    (hpfx : s.matchedPrefix ≠ [])
    (hlen : cfg.flashCharacterCount ≤ s.searchString.length)
    (hm : s.matchList ≠ []) :
    (∀ m, s.matchList.find?
        (fun mm => mm.letter == s.matchedPrefix ++ (normalizeKeypress [c]).map jsToLower)
        = some m →
      (handleKeyDown det cfg [c] shiftKey s).jumps =
        s.jumps ++ [(m, s.prefixShiftHeld || shiftKey)]) ∧
    (s.matchList.find?
        (fun mm => mm.letter == s.matchedPrefix ++ (normalizeKeypress [c]).map jsToLower)
        = none →
      handleKeyDown det cfg [c] shiftKey s =
        updateMatches det cfg
          { s with lastShiftKey := shiftKey, matchedPrefix := [],
                   prefixShiftHeld := false,
                   searchString := s.searchString ++ [c] }) := by
  rw [handleKeyDown_char det cfg c shiftKey s]
  unfold handlePrintableKey
  rw [if_pos ⟨hlen, List.length_pos.mpr hm⟩]
  rw [if_pos (by simpa using hpfx)]
  constructor
  · intro m hfind
    simp only at hfind ⊢
    rw [hfind]
    simp [jumpToMatch_jumps]
  · intro hfind
    simp only at hfind ⊢
    rw [hfind]

/-- Witness for C2: prefix `'a'` followed by `'b'` selects the match
labelled `"ab"`, with shift taken from the prefix keystroke. -/
theorem handleKeyDown_prefix_pending_witness :
    (handleKeyDown (fun _ => []) ⟨['a', 'b'], 1, true, InputMode.literal⟩ ['b'] false
        ⟨['x'], true, false, [⟨3, 1, ['x'], ['a', 'b']⟩], ['a'], true, false, 0, [],
          []⟩).jumps
      = [] ++ [(⟨3, 1, ['x'], ['a', 'b']⟩, true || false)] :=
  (handleKeyDown_prefix_pending _ _ _ _ _ (by decide) (by decide) (by decide)).1 _
    (by decide)

/-- Counterexample to C2 as stated: after an invalid second character the
code does *not* re-evaluate the key under full plain-searching handling.
Concretely, in prefix-pending state with prefix `'a'`, matches labelled
`"ab"`/`"ac"` and a detector yielding no matches for the extended search,
pressing `'a'` again makes the code append `'a'` to the search string and
clear everything, while plain-searching handling of the same key at the
prefix-cleared state would re-enter prefix-pending on the `'a'`-labels. -/
theorem handleKeyDown_prefix_fallthrough_counterexample :
    handleKeyDown (fun _ => []) ⟨['a', 'b', 'c'], 1, true, InputMode.literal⟩ ['a'] false
        ⟨['x'], true, false, [⟨3, 1, ['x'], ['a', 'b']⟩, ⟨5, 1, ['x'], ['a', 'c']⟩],
          ['a'], false, false, 0, [], []⟩
      ≠ handlePrintableKey (fun _ => []) ⟨['a', 'b', 'c'], 1, true, InputMode.literal⟩
        'a' false
        ⟨['x'], true, false, [⟨3, 1, ['x'], ['a', 'b']⟩, ⟨5, 1, ['x'], ['a', 'c']⟩],
          [], false, false, 0, [], []⟩ := by
  decide

/-- C9 (amended): handling Backspace records the key's shift state and then:
in prefix-pending, clears only the prefix state, keeps the search string and
recomputes matches via `updateMatches`; with no prefix and a non-empty
search string, drops exactly the last character and recomputes likewise;
otherwise changes nothing beyond the recorded shift state.  The
recomputation clears the matches below the minimum length and auto-jumps
(deactivating, which *does* clear the search string) when it yields exactly
one match; when the prefix-pending recomputation does not yield a singleton,
the search string is indeed left unchanged. -/
theorem handleKeyDown_backspace (det : List Char → List FlashMatch) (cfg : Settings)
    (shiftKey : Bool) (s : FState) :
    (s.matchedPrefix ≠ [] →
      handleKeyDown det cfg backspaceKey shiftKey s =
        updateMatches det cfg
          { s with lastShiftKey := shiftKey, matchedPrefix := [],
                   prefixShiftHeld := false }) ∧
    (s.matchedPrefix = [] → s.searchString ≠ [] →
      handleKeyDown det cfg backspaceKey shiftKey s =
        updateMatches det cfg
          { s with lastShiftKey := shiftKey,
                   searchString := s.searchString.dropLast }) ∧
    (s.matchedPrefix = [] → s.searchString = [] →
      handleKeyDown det cfg backspaceKey shiftKey s = { s with lastShiftKey := shiftKey }) ∧
    (s.matchedPrefix ≠ [] → (∀ m, det s.searchString ≠ [m]) →
      (handleKeyDown det cfg backspaceKey shiftKey s).searchString = s.searchString ∧
      (handleKeyDown det cfg backspaceKey shiftKey s).matchedPrefix = []) := by
  have hkd : handleKeyDown det cfg backspaceKey shiftKey s =
      (if s.matchedPrefix ≠ [] then
        updateMatches det cfg
          { s with lastShiftKey := shiftKey, matchedPrefix := [], prefixShiftHeld := false }
      else if 0 < s.searchString.length then
        updateMatches det cfg
          { s with lastShiftKey := shiftKey, searchString := s.searchString.dropLast }
      else { s with lastShiftKey := shiftKey }) := by
    unfold handleKeyDown
    rw [if_neg (by simp [backspaceKey, escapeKey])]
    rw [if_pos rfl]
  refine ⟨fun hp => ?_, fun hp hs => ?_, fun hp hs => ?_, fun hp hdet => ?_⟩
  · rw [hkd, if_pos (by simpa using hp)]
  · rw [hkd, if_neg (by simpa using hp), if_pos (by simpa using List.length_pos.mpr hs)]
  · rw [hkd, if_neg (by simpa using hp)]
    rw [if_neg (by simp [hs])]
  · rw [hkd, if_pos (by simpa using hp)]
    unfold updateMatches
    split
    · simp [notifyDecorationUpdate]
    · rename_i hms
      cases hdm : det s.searchString with
      | nil => simp only [hdm]; simp [notifyDecorationUpdate]
      | cons m rest =>
        cases rest with
        | nil => exact absurd hdm (hdet m)
        | cons m2 rest2 => simp only [hdm]; simp [notifyDecorationUpdate]

/-- Witness for C9: Backspace in prefix-pending state clears the prefix and
keeps the search string when the recomputation yields two matches. -/
theorem handleKeyDown_backspace_witness :
    handleKeyDown
        (fun q => if q = ['x'] then [⟨3, 1, ['x'], ['a']⟩, ⟨5, 1, ['x'], ['b']⟩] else [])
        ⟨['a', 'b'], 1, true, InputMode.literal⟩ backspaceKey false
        ⟨['x'], true, false, [⟨3, 1, ['x'], ['a', 'b']⟩], ['a'], true, false, 0, [], []⟩
      = updateMatches
        (fun q => if q = ['x'] then [⟨3, 1, ['x'], ['a']⟩, ⟨5, 1, ['x'], ['b']⟩] else [])
        ⟨['a', 'b'], 1, true, InputMode.literal⟩
        ⟨['x'], true, false, [⟨3, 1, ['x'], ['a', 'b']⟩], [], false, false, 0, [], []⟩ :=
  (handleKeyDown_backspace _ _ _ _).1 (by decide)

/-- Counterexample to C9 as stated: Backspace in prefix-pending does not
always leave the search string unchanged.  With the detector yielding
exactly one match for the unchanged search string, the recomputation
auto-jumps and deactivates, clearing the search string. -/
theorem handleKeyDown_backspace_counterexample :
    (handleKeyDown (fun q => if q = ['x'] then [⟨3, 1, ['x'], []⟩] else [])
        ⟨['a', 'b'], 1, true, InputMode.literal⟩ backspaceKey false
        ⟨['x'], true, false, [⟨3, 1, ['x'], ['a', 'b']⟩, ⟨5, 1, ['x'], ['a', 'c']⟩],
          ['a'], false, false, 0, [], []⟩).searchString
      ≠ (['x'] : List Char) := by
  decide

/-! ### Literal scan: termination -/

theorem findFrom_bounds {caseSensitive : Bool} {pat content : List Char} {pos i : Nat}
    (h : findFrom caseSensitive pat content pos = some i) :
    pos ≤ i ∧ i ≤ content.length := by
  unfold findFrom at h
  have hmem := List.mem_of_mem_head? (l := (List.range (content.length + 1)).filter fun j =>
      decide (pos ≤ j) && literalMatchAt caseSensitive pat content j) (a := i)
    (by rw [show ((List.range (content.length + 1)).filter fun j =>
          decide (pos ≤ j) && literalMatchAt caseSensitive pat content j).head? = some i
        from h]; rfl)
  rw [List.mem_filter] at hmem
  obtain ⟨hr, hp⟩ := hmem
  rw [List.mem_range] at hr
  rw [Bool.and_eq_true, decide_eq_true_iff] at hp
  exact ⟨hp.1, Nat.lt_succ_iff.mp hr⟩

/-- C7: the literal match-finding loop terminates on every search string and
every finite content.  Each iteration advances the scan cursor by at least
one — in particular a would-be zero-length regex step (empty pattern) emits
its match and then advances the cursor by exactly one past the match
position — so the loop runs at most `content.length + 1` iterations, each
emitting one match, which bounds the match list.  (The loop itself is a
well-founded recursion on the scan position, so its totality is part of
this development.) -/
theorem scanLiteral_terminates (caseSensitive : Bool) (pat content : List Char)
    (base pos : Nat) :
    ((scanLiteral caseSensitive pat content base pos).length ≤ content.length + 1 - pos) ∧
    (∀ i, findFrom caseSensitive pat content pos = some i → pat.length = 0 →
      scanLiteral caseSensitive pat content base pos =
        { index := i + base, matchLength := 0, linkText := [] } ::
          scanLiteral caseSensitive pat content base (i + 1)) := by
  constructor
  · have H : ∀ fuel pos, content.length + 1 - pos ≤ fuel →
        (scanLiteral caseSensitive pat content base pos).length ≤
          content.length + 1 - pos := by
      intro fuel
      induction fuel with
      | zero =>
        intro pos hp
        rw [scanLiteral.eq_def]
        split
        · simp
        · rename_i i hf
          obtain ⟨h1, h2⟩ := findFrom_bounds hf
          omega
      | succ n ih =>
        intro pos hp
        rw [scanLiteral.eq_def]
        split
        · simp
        · rename_i i hf
          obtain ⟨h1, h2⟩ := findFrom_bounds hf
          have hnext : pos < if pat.length = 0 then i + 1 else i + pat.length := by
            split <;> omega
          have hrec := ih (if pat.length = 0 then i + 1 else i + pat.length) (by omega)
          simp only [List.length_cons]
          omega
    exact H (content.length + 1) pos (by omega)
  · intro i hf hz
    rw [scanLiteral.eq_def]
    split
    · rename_i hnone; rw [hf] at hnone; cases hnone
    · rename_i j hj
      rw [hf] at hj
      injection hj with hij
      subst hij
      simp [hz]

/-- Witness for C7: the empty pattern at position 0 of `"ab"` is a zero-length
step; the match is emitted and the cursor advanced to 1. -/
theorem scanLiteral_terminates_witness :
    scanLiteral true [] ['a', 'b'] 0 0 =
      { index := 0, matchLength := 0, linkText := [] } ::
        scanLiteral true [] ['a', 'b'] 0 1 :=
  (scanLiteral_terminates true [] ['a', 'b'] 0 0).2 0 (by decide) rfl

/-! ### Deduplication lemmas -/

theorem mem_jsSetDedupFrom (c : Char) :
    ∀ (l : List Char) (seen : List Char),
      c ∈ jsSetDedupFrom seen l ↔ c ∈ l ∧ c ∉ seen := by
  intro l
  induction l with
  | nil => intro seen; simp [jsSetDedupFrom]
  | cons d rest ih =>
    intro seen
    unfold jsSetDedupFrom
    split <;> rename_i hd <;> rw [List.elem_iff] at hd
    · rw [ih]
      simp only [List.mem_cons]
      constructor
      · exact fun h => ⟨Or.inr h.1, h.2⟩
      · rintro ⟨hcd | h1, h2⟩
        · rw [hcd] at h2; exact absurd hd h2
        · exact ⟨h1, h2⟩
    · simp only [ih, List.mem_cons]
      constructor
      · rintro (hcd | ⟨h1, h2⟩)
        · subst hcd; exact ⟨Or.inl rfl, hd⟩
        · exact ⟨Or.inr h1, fun hs => h2 (Or.inr hs)⟩
      · rintro ⟨hcd | h1, h2⟩
        · exact Or.inl hcd
        · by_cases hcd : c = d
          · exact Or.inl hcd
          · exact Or.inr ⟨h1, fun hs => hs.elim hcd h2⟩

theorem mem_jsSetDedup (c : Char) (l : List Char) : c ∈ jsSetDedup l ↔ c ∈ l := by
  unfold jsSetDedup
  rw [mem_jsSetDedupFrom]
  simp

/-- C3: the exclusion set the Match Detector passes to the label generator
is exactly the set of characters `c` that are (lower-cased, non-whitespace)
characters of the configured label alphabet such that re-running the match
finder on `searchString ++ c` over the same content still yields at least
one match — the full-alphabet probe, not a next-character heuristic. -/
theorem collectSearchConflictChars_full_probe (settings : Settings)
    (codes : Char → List (List Char)) (searchString content : List Char)
    (index : Nat) (c : Char) :
    c ∈ collectSearchConflictChars settings codes searchString content index ↔
      (c ∈ settings.letters.map jsToLower ∧ ¬c.isWhitespace = true ∧
        getRawMatches settings codes (searchString ++ [c]) content index ≠ []) := by
  unfold collectSearchConflictChars
  simp only [List.mem_filter, mem_jsSetDedup, Bool.not_eq_true', List.isEmpty_iff,
    Bool.not_eq_true]
  constructor
  · rintro ⟨⟨h1, h2⟩, h3⟩
    refine ⟨h1, by simp [h2], by simpa using h3⟩
  · rintro ⟨h1, h2, h3⟩
    refine ⟨⟨h1, by simpa using h2⟩, by simpa using h3⟩

/-- C4: no label returned by the generator is exactly an excluded character,
and no returned 2-character label has an excluded character as its second
character. -/
theorem generateHintLabels_respects_excluded (alphabet : List Char) (count : Nat)
    (excluded : List Char) (l : List Char) (c : Char)
    (hl : l ∈ generateHintLabels alphabet count excluded) (hc : c ∈ excluded) :
    l ≠ [c] ∧ ∀ a b, l = [a, b] → b ∉ excluded := by
  unfold generateHintLabels at hl
  have hl' := List.mem_of_mem_take hl
  rw [List.mem_append] at hl'
  rcases hl' with hs | hp
  · rw [List.mem_map] at hs
    obtain ⟨d, hd, rfl⟩ := hs
    have hdu := List.mem_of_mem_take hd
    rw [List.mem_filter] at hdu
    have hdex : d ∉ excluded := by
      have := hdu.2
      simpa [List.elem_iff] using this
    constructor
    · intro he
      injection he with h1 _
      exact hdex (h1 ▸ hc)
    · intro a b he
      cases he
  · rw [List.mem_flatMap] at hp
    obtain ⟨p, hpmem, hps⟩ := hp
    rw [List.mem_map] at hps
    obtain ⟨d, hd, rfl⟩ := hps
    rw [List.mem_filter] at hd
    have hdex : d ∉ excluded := by
      have := hd.2
      simpa [List.elem_iff] using this
    constructor
    · intro he
      injection he with _ h2
      exact absurd h2 (List.cons_ne_nil _ _)
    intro a b he
    injection he with h1 h2
    injection h2 with h2 _
    exact h2 ▸ hdex

/-- Witness for C4 at alphabet `"ab"`, count 3, excluded `{'b'}`: the labels
are `["a", "ba"]` and both parts of the theorem hold at `l = "a"`. -/
theorem generateHintLabels_respects_excluded_witness :
    ((['a'] : List Char) ∈ generateHintLabels ['a', 'b'] 3 ['b'] ∧
      'b' ∈ (['b'] : List Char)) ∧
    ((['a'] : List Char) ≠ ['b'] ∧ ∀ a b, (['a'] : List Char) = [a, b] → b ∉ ['b']) :=
  ⟨⟨by decide, by decide⟩,
    generateHintLabels_respects_excluded ['a', 'b'] 3 ['b'] ['a'] 'b' (by decide)
      (by decide)⟩

/-! ### Merge lemmas (C5) -/

theorem dedupeByKeyFrom_subset :
    ∀ (l : List RawFlashMatch) (seen : List (Nat × Nat)) (m : RawFlashMatch),
      m ∈ dedupeByKeyFrom seen l → m ∈ l := by
  intro l
  induction l with
  | nil => intro seen m h; simp [dedupeByKeyFrom] at h
  | cons a rest ih =>
    intro seen m h
    unfold dedupeByKeyFrom at h
    split at h
    · exact List.mem_cons_of_mem _ (ih _ _ h)
    · rcases List.mem_cons.mp h with rfl | h
      · exact List.mem_cons_self _ _
      · exact List.mem_cons_of_mem _ (ih _ _ h)

theorem mem_map_matchKey_dedupeByKeyFrom (p : Nat × Nat) :
    ∀ (l : List RawFlashMatch) (seen : List (Nat × Nat)),
      p ∈ (dedupeByKeyFrom seen l).map matchKey ↔ p ∈ l.map matchKey ∧ p ∉ seen := by
  intro l
  induction l with
  | nil => intro seen; simp [dedupeByKeyFrom]
  | cons a rest ih =>
    intro seen
    unfold dedupeByKeyFrom
    split <;> rename_i hd <;> rw [List.elem_iff] at hd
    · rw [ih]
      simp only [List.map_cons, List.mem_cons]
      constructor
      · exact fun h => ⟨Or.inr h.1, h.2⟩
      · rintro ⟨hcd | h1, h2⟩
        · rw [hcd] at h2; exact absurd hd h2
        · exact ⟨h1, h2⟩
    · simp only [List.map_cons, List.mem_cons, ih]
      constructor
      · rintro (hcd | ⟨h1, h2⟩)
        · subst hcd; exact ⟨Or.inl rfl, hd⟩
        · exact ⟨Or.inr h1, fun hs => h2 (Or.inr hs)⟩
      · rintro ⟨hcd | h1, h2⟩
        · exact Or.inl hcd
        · by_cases hcd : p = matchKey a
          · exact Or.inl hcd
          · exact Or.inr ⟨h1, fun hs => hs.elim hcd h2⟩

theorem nodup_map_matchKey_dedupeByKeyFrom :
    ∀ (l : List RawFlashMatch) (seen : List (Nat × Nat)),
      ((dedupeByKeyFrom seen l).map matchKey).Nodup := by
  intro l
  induction l with
  | nil => intro seen; simp [dedupeByKeyFrom]
  | cons a rest ih =>
    intro seen
    unfold dedupeByKeyFrom
    split
    · exact ih _
    · simp only [List.map_cons, List.nodup_cons]
      refine ⟨fun hmem => ?_, ih _⟩
      have := (mem_map_matchKey_dedupeByKeyFrom _ _ _).mp hmem
      exact this.2 (List.mem_cons_self _ _)

theorem keyLE_trans (a b c : RawFlashMatch) :
    keyLE a b = true → keyLE b c = true → keyLE a c = true := by
  unfold keyLE
  simp only [Bool.or_eq_true, Bool.and_eq_true, decide_eq_true_iff]
  omega

theorem keyLE_total (a b : RawFlashMatch) : (keyLE a b || keyLE b a) = true := by
  unfold keyLE
  simp only [Bool.or_eq_true, Bool.and_eq_true, decide_eq_true_iff]
  omega

theorem keyLE_ne_lt (a b : RawFlashMatch) (h1 : keyLE a b = true)
    (h2 : matchKey a ≠ matchKey b) :
    a.index < b.index ∨ (a.index = b.index ∧ a.matchLength < b.matchLength) := by
  unfold keyLE at h1
  unfold matchKey at h2
  simp only [Bool.or_eq_true, Bool.and_eq_true, decide_eq_true_iff] at h1
  rcases h1 with h | ⟨he, hle⟩
  · exact Or.inl h
  · refine Or.inr ⟨he, ?_⟩
    rcases Nat.lt_or_ge a.matchLength b.matchLength with h | h
    · exact h
    · exfalso
      apply h2
      rw [Prod.mk.injEq]
      omega

theorem mergeMatches_sorted_nodup (lists : List (List RawFlashMatch)) :
    ((mergeMatches lists).Pairwise fun a b =>
      a.index < b.index ∨ (a.index = b.index ∧ a.matchLength < b.matchLength)) ∧
    (∀ p, p ∈ (mergeMatches lists).map matchKey ↔ p ∈ lists.flatten.map matchKey) ∧
    (∀ m, m ∈ mergeMatches lists → m ∈ lists.flatten) := by
  unfold mergeMatches
  have hperm := List.mergeSort_perm (dedupeByKey lists.flatten) keyLE
  have hsorted := List.sorted_mergeSort keyLE_trans keyLE_total (dedupeByKey lists.flatten)
  have hnodup : (((dedupeByKey lists.flatten).mergeSort keyLE).map matchKey).Nodup :=
    (List.Perm.nodup_iff (hperm.map matchKey)).mpr
      (nodup_map_matchKey_dedupeByKeyFrom _ _)
  refine ⟨?_, fun p => ?_, fun m hm => ?_⟩
  · have hpn : ((dedupeByKey lists.flatten).mergeSort keyLE).Pairwise
        (fun a b => matchKey a ≠ matchKey b) := by
      rw [← List.pairwise_map]
      exact hnodup
    exact (hsorted.and hpn).imp fun hab => keyLE_ne_lt _ _ hab.1 hab.2
  · rw [(hperm.map matchKey).mem_iff]
    unfold dedupeByKey
    rw [mem_map_matchKey_dedupeByKeyFrom]
    simp
  · exact dedupeByKeyFrom_subset _ _ _ (hperm.mem_iff.mp hm)

/-- C5: in phonetic input mode the detector's raw match list is the literal
and phonetic match lists merged by deduplicating on `(index, matchLength)`
and sorting by index ascending with ties broken by matchLength ascending:
the result is strictly sorted in that lexicographic order (hence duplicate
keys are gone), and its key set is exactly the union of the two lists' key
sets. -/
theorem getRawMatches_phonetic_merge (settings : Settings)
    (codes : Char → List (List Char)) (searchString content : List Char) (index : Nat)
    (hmode : settings.flashInputMode = InputMode.zhPyjj) :
    ((getRawMatches settings codes searchString content index).Pairwise fun a b =>
      a.index < b.index ∨ (a.index = b.index ∧ a.matchLength < b.matchLength)) ∧
    (∀ p : Nat × Nat,
      (∃ m ∈ getRawMatches settings codes searchString content index,
          (m.index, m.matchLength) = p) ↔
      (∃ m ∈ findLiteralMatches settings searchString content index ++
            findPyjjMatchesInContent codes searchString content index,
          matchKey m = p)) ∧
    (∀ m ∈ getRawMatches settings codes searchString content index,
      ∃ m0 ∈ findLiteralMatches settings searchString content index ++
          findPyjjMatchesInContent codes searchString content index,
        m = rawToFlash m0) := by
  unfold getRawMatches
  rw [if_neg (by simp [hmode])]
  obtain ⟨hpw, hkeys, hsub⟩ := mergeMatches_sorted_nodup
    [findLiteralMatches settings searchString content index,
      findPyjjMatchesInContent codes searchString content index]
  refine ⟨?_, fun p => ?_, ?_⟩
  · rw [List.pairwise_map]
    exact hpw
  pick_goal 2
  · intro m hm
    rw [List.mem_map] at hm
    obtain ⟨m0, hm0, rfl⟩ := hm
    have := hsub m0 hm0
    simp only [List.flatten, List.append_nil] at this
    exact ⟨m0, this, rfl⟩
  · 
    have h1 : (∃ m ∈ (mergeMatches
        [findLiteralMatches settings searchString content index,
          findPyjjMatchesInContent codes searchString content index]).map rawToFlash,
        (m.index, m.matchLength) = p) ↔
        p ∈ (mergeMatches
          [findLiteralMatches settings searchString content index,
            findPyjjMatchesInContent codes searchString content index]).map matchKey := by
      simp only [List.mem_map]
      constructor
      · rintro ⟨m, ⟨m', hm', rfl⟩, rfl⟩
        exact ⟨m', hm', rfl⟩
      · rintro ⟨m', hm', rfl⟩
        exact ⟨rawToFlash m', ⟨m', hm', rfl⟩, rfl⟩
    rw [h1, hkeys p]
    simp only [List.flatten, List.append_nil, List.mem_map, List.mem_append]

/-- Witness for C5 at a concrete phonetic-mode configuration. -/
theorem getRawMatches_phonetic_merge_witness :
    ((getRawMatches ⟨['a'], 1, true, InputMode.zhPyjj⟩
        (fun c => if c = '中' then [['v', 'y']] else []) ['v', 'y'] ['中'] 0).Pairwise
      fun a b => a.index < b.index ∨ (a.index = b.index ∧ a.matchLength < b.matchLength)) ∧
    (∀ p : Nat × Nat,
      (∃ m ∈ getRawMatches ⟨['a'], 1, true, InputMode.zhPyjj⟩
          (fun c => if c = '中' then [['v', 'y']] else []) ['v', 'y'] ['中'] 0,
          (m.index, m.matchLength) = p) ↔
      (∃ m ∈ findLiteralMatches ⟨['a'], 1, true, InputMode.zhPyjj⟩ ['v', 'y'] ['中'] 0 ++
            findPyjjMatchesInContent (fun c => if c = '中' then [['v', 'y']] else [])
              ['v', 'y'] ['中'] 0,
          matchKey m = p)) ∧
    (∀ m ∈ getRawMatches ⟨['a'], 1, true, InputMode.zhPyjj⟩
        (fun c => if c = '中' then [['v', 'y']] else []) ['v', 'y'] ['中'] 0,
      ∃ m0 ∈ findLiteralMatches ⟨['a'], 1, true, InputMode.zhPyjj⟩ ['v', 'y'] ['中'] 0 ++
          findPyjjMatchesInContent (fun c => if c = '中' then [['v', 'y']] else [])
            ['v', 'y'] ['中'] 0,
        m = rawToFlash m0) :=
  getRawMatches_phonetic_merge _ _ _ _ _ rfl

/-! ### Phonetic matcher lemmas (C6) -/

theorem buildCharInfosFrom_length (l : List Char) :
    ∀ offset, (buildCharInfosFrom offset l).length = l.length := by
  induction l with
  | nil => intro o; rfl
  | cons c rest ih => intro o; simp [buildCharInfosFrom, ih]

theorem buildCharInfos_length (content : List Char) :
    (buildCharInfos content).length = content.length :=
  buildCharInfosFrom_length content 0

theorem utf16Offset_zero (l : List Char) : utf16Offset l 0 = 0 := by
  simp [utf16Offset]

theorem utf16Offset_cons_succ (c : Char) (l : List Char) (p : Nat) :
    utf16Offset (c :: l) (p + 1) = jsLen c + utf16Offset l p := by
  simp [utf16Offset, List.take_succ_cons]

theorem jsLen_pos (c : Char) : 1 ≤ jsLen c := by
  unfold jsLen; split <;> omega

theorem utf16Offset_lt_of_lt :
    ∀ (l : List Char) (i j : Nat), i < j → j ≤ l.length →
      utf16Offset l i < utf16Offset l j := by
  intro l
  induction l with
  | nil => intro i j hij hj; simp at hj; omega
  | cons c rest ih =>
    intro i j hij hj
    cases j with
    | zero => omega
    | succ j =>
      cases i with
      | zero =>
        rw [utf16Offset_zero, utf16Offset_cons_succ]
        have h1 := jsLen_pos c
        omega
      | succ i =>
        rw [utf16Offset_cons_succ, utf16Offset_cons_succ]
        have := ih i j (by omega) (by simpa using hj)
        omega

theorem utf16Offset_of_length_le (l : List Char) (p : Nat) (h : l.length ≤ p) :
    utf16Offset l p = utf16Offset l l.length := by
  unfold utf16Offset
  rw [List.take_of_length_le h, List.take_of_length_le (le_refl _)]

theorem buildCharInfosFrom_getD :
    ∀ (l : List Char) (offset i : Nat), i < l.length →
      (buildCharInfosFrom offset l).getD i ⟨'a', 0, 0⟩ =
        { char := l.getD i 'a', start := offset + utf16Offset l i,
          stop := offset + utf16Offset l (i + 1) } := by
  intro l
  induction l with
  | nil => intro o i h; cases h
  | cons c rest ih =>
    intro o i h
    cases i with
    | zero =>
      simp [buildCharInfosFrom, utf16Offset_zero, utf16Offset_cons_succ]
    | succ i =>
      simp only [buildCharInfosFrom, List.getD_cons_succ, List.getD_cons_succ]
      rw [ih (o + jsLen c) i (by simpa using h)]
      rw [utf16Offset_cons_succ, utf16Offset_cons_succ]
      simp [Nat.add_assoc]

theorem buildCharInfos_getD (content : List Char) (i : Nat) (h : i < content.length) :
    (buildCharInfos content).getD i ⟨'a', 0, 0⟩ =
      { char := content.getD i 'a', start := utf16Offset content i,
        stop := utf16Offset content (i + 1) } := by
  unfold buildCharInfos
  rw [buildCharInfosFrom_getD content 0 i h]
  simp

theorem runTokens_iff (codes : Char → List (List Char)) (chars : List CharInfo) :
    ∀ (tokens : List PyjjToken) (cursor : Nat),
      runTokens codes chars tokens cursor = true ↔
        ∀ j, j < tokens.length →
          cursor + j < chars.length ∧
          matchesToken codes ((chars.getD (cursor + j) ⟨'a', 0, 0⟩).char)
            (tokens.getD j (PyjjToken.single ['a'])) = true := by
  intro tokens
  induction tokens with
  | nil => intro cursor; simp [runTokens]
  | cons t ts ih =>
    intro cursor
    unfold runTokens
    cases hc : chars[cursor]? with
    | none =>
      have hlen := List.getElem?_eq_none_iff.mp hc
      constructor
      · intro h; cases h
      · intro h
        have h0 := (h 0 (by simp)).1
        omega
    | some info =>
      have hlt : cursor < chars.length := by
        by_contra hge
        rw [List.getElem?_eq_none_iff.mpr (by omega)] at hc
        cases hc
      have hgd : chars.getD cursor ⟨'a', 0, 0⟩ = info := by
        rw [List.getD_eq_getElem?_getD, hc]; rfl
      rw [Bool.and_eq_true, ih (cursor + 1)]
      constructor
      · rintro ⟨hm, hrest⟩ j hj
        cases j with
        | zero =>
          refine ⟨by omega, ?_⟩
          simpa [List.getD_eq_getElem?_getD, hc] using hm
        | succ j =>
          have := hrest j (by simpa using hj)
          constructor
          · omega
          · have harith : cursor + 1 + j = cursor + (j + 1) := by omega
            rw [harith] at this
            simpa using this.2
      · intro h
        constructor
        · have h0 := (h 0 (by simp)).2
          simpa [List.getD_eq_getElem?_getD, hc] using h0
        · intro j hj
          have := h (j + 1) (by simp only [List.length_cons]; omega)
          have harith : cursor + (j + 1) = cursor + 1 + j := by omega
          rw [harith] at this
          exact ⟨this.1, by simpa using this.2⟩

theorem chunkPyjj_ne_nil : ∀ (l : List Char), l ≠ [] → chunkPyjj l ≠ [] := by
  intro l h
  match l with
  | [c] => simp [chunkPyjj]
  | a :: b :: rest => simp [chunkPyjj]

theorem buildCharInfosFrom_getElemQ :
    ∀ (l : List Char) (offset i : Nat), i < l.length →
      (buildCharInfosFrom offset l)[i]? =
        some { char := l.getD i 'a', start := offset + utf16Offset l i,
               stop := offset + utf16Offset l (i + 1) } := by
  intro l
  induction l with
  | nil => intro o i h; cases h
  | cons c rest ih =>
    intro o i h
    cases i with
    | zero =>
      simp [buildCharInfosFrom, utf16Offset_zero, utf16Offset_cons_succ]
    | succ i =>
      simp only [buildCharInfosFrom, List.getElem?_cons_succ, List.getD_cons_succ]
      rw [ih (o + jsLen c) i (by simpa using h)]
      rw [utf16Offset_cons_succ, utf16Offset_cons_succ]
      simp [Nat.add_assoc]

theorem buildCharInfos_getElemQ (content : List Char) (i : Nat) (h : i < content.length) :
    (buildCharInfos content)[i]? =
      some { char := content.getD i 'a', start := utf16Offset content i,
             stop := utf16Offset content (i + 1) } := by
  unfold buildCharInfos
  rw [buildCharInfosFrom_getElemQ content 0 i h]
  simp

/-- C6: the phonetic matcher returns a match starting at character position
`p` iff the search string is non-empty and consists only of ASCII letters
(the `/^[a-zA-Z]+$/` gate — in particular a search string containing any
non-letter yields no phonetic matches) and, splitting its lower-casing into
2-character tokens left to right with a dangling final character as a
single prefix-only token (`chunkPyjj`), every token matches its
corresponding consecutive content character (`matchesToken`: a pair token
by literal membership in the character's code list, a single dangling token
by being a prefix of some code in the list). -/
theorem findPyjjMatchesInContent_window (codes : Char → List (List Char))
    (searchString content : List Char) (baseIndex p : Nat) :
    (∃ m ∈ findPyjjMatchesInContent codes searchString content baseIndex,
        m.index = baseIndex + utf16Offset content p) ↔
    (searchString ≠ [] ∧ searchString.all Char.isAlpha = true ∧
      p + (chunkPyjj (searchString.map jsToLower)).length ≤ content.length ∧
      ∀ j, j < (chunkPyjj (searchString.map jsToLower)).length →
        matchesToken codes (content.getD (p + j) 'a')
          ((chunkPyjj (searchString.map jsToLower)).getD j (PyjjToken.single ['a']))
          = true) := by
  unfold findPyjjMatchesInContent
  split
  case h_1 hparse =>
    have hcond : ¬(searchString ≠ [] ∧ searchString.all Char.isAlpha = true) := by
      intro hc
      unfold parsePyjjTokens at hparse
      rw [if_pos hc] at hparse
      cases hparse
    constructor
    · rintro ⟨m, hm, _⟩
      exact absurd hm (List.not_mem_nil m)
    · rintro ⟨h1, h2, _⟩
      exact (hcond ⟨h1, h2⟩).elim
  case h_2 tokens hparse =>
    have hcond : searchString ≠ [] ∧ searchString.all Char.isAlpha = true := by
      by_contra hc
      unfold parsePyjjTokens at hparse
      rw [if_neg hc] at hparse
      cases hparse
    have htok : tokens = chunkPyjj (searchString.map jsToLower) := by
      unfold parsePyjjTokens at hparse
      rw [if_pos hcond] at hparse
      injection hparse with h
      exact h.symm
    subst htok
    have hTne : chunkPyjj (searchString.map jsToLower) ≠ [] :=
      chunkPyjj_ne_nil _ (by
        intro h
        exact hcond.1 (by simpa using h))
    have hT1 : 1 ≤ (chunkPyjj (searchString.map jsToLower)).length :=
      Nat.one_le_iff_ne_zero.mpr (by simpa [List.length_eq_zero] using hTne)
    rw [if_neg (by omega)]
    simp only [buildCharInfos_length]
    by_cases hlt : content.length < (chunkPyjj (searchString.map jsToLower)).length
    · rw [if_pos hlt]
      constructor
      · rintro ⟨m, hm, _⟩
        exact absurd hm (List.not_mem_nil m)
      · rintro ⟨_, _, hle, _⟩
        omega
    · rw [if_neg hlt]
      push_neg at hlt
      constructor
      · rintro ⟨m, hm, hidx⟩
        rw [List.mem_filterMap] at hm
        obtain ⟨start, hstart, hf⟩ := hm
        rw [List.mem_range] at hstart
        split at hf
        pick_goal 2
        · cases hf
        rename_i hrun
        have hstartN : start < content.length := by omega
        have hoff : (((buildCharInfos content)[start]?).map CharInfo.start).getD 0 =
            utf16Offset content start := by
          rw [buildCharInfos_getElemQ content start hstartN]
          rfl
        rw [Option.some.injEq] at hf
        have hmidx : m.index = baseIndex + utf16Offset content start := by
          rw [← hf]
          simpa using hoff
        have heq : utf16Offset content start = utf16Offset content p := by
          rw [hmidx] at hidx
          omega
        have hsp : start = p := by
          rcases Nat.lt_trichotomy start p with h | h | h
          · by_cases hpN : p ≤ content.length
            · have := utf16Offset_lt_of_lt content start p h hpN
              omega
            · have h1 := utf16Offset_lt_of_lt content start content.length hstartN
                (le_refl _)
              have h2 := utf16Offset_of_length_le content p (by omega)
              omega
          · exact h
          · have := utf16Offset_lt_of_lt content p start h (by omega)
            omega
        subst hsp
        refine ⟨hcond.1, hcond.2, by omega, ?_⟩
        intro j hj
        have hrt := (runTokens_iff codes (buildCharInfos content) _ start).mp hrun j hj
        have hjN : start + j < content.length := by
          have := hrt.1
          rw [buildCharInfos_length] at this
          exact this
        have hch := buildCharInfos_getD content (start + j) hjN
        rw [hch] at hrt
        exact hrt.2
      · rintro ⟨_, _, hle, hmt⟩
        have hrun : runTokens codes (buildCharInfos content)
            (chunkPyjj (searchString.map jsToLower)) p = true := by
          rw [runTokens_iff]
          intro j hj
          have hjN : p + j < content.length := by omega
          refine ⟨by rw [buildCharInfos_length]; exact hjN, ?_⟩
          rw [buildCharInfos_getD content (p + j) hjN]
          exact hmt j hj
        refine ⟨⟨baseIndex + utf16Offset content p,
          (utf16Offset content (p + (chunkPyjj (searchString.map jsToLower)).length - 1 + 1))
            - utf16Offset content p,
          (((buildCharInfos content).drop p).take
            (chunkPyjj (searchString.map jsToLower)).length).map CharInfo.char⟩,
          ?_, rfl⟩
        rw [List.mem_filterMap]
        refine ⟨p, ?_, ?_⟩
        · rw [List.mem_range]
          omega
        · rw [if_pos hrun]
          rw [Option.some.injEq]
          have hoffs : (((buildCharInfos content)[p]?).map CharInfo.start).getD 0 =
              utf16Offset content p := by
            rw [buildCharInfos_getElemQ content p (by omega)]
            rfl
          have hoffe : (((buildCharInfos content)[p +
              (chunkPyjj (searchString.map jsToLower)).length - 1]?).map
                CharInfo.stop).getD 0 =
              utf16Offset content
                (p + (chunkPyjj (searchString.map jsToLower)).length - 1 + 1) := by
            rw [buildCharInfos_getElemQ content _ (by omega)]
            rfl
          rw [hoffs, hoffe]

end ObsidianFlash
